import Mathlib

/-!
Verification of the gbas assembler/linker against its specification.

The development shallowly embeds the parts of the source that the claims
touch:

* `Gbas.intoRom` — `Program::into_rom` (src/src/link/mod.rs, lines 36-54):
  ROM image production from binary sections.
* the macro-expansion engine of src/src/session/macros.rs
  (`mk_macro_expansion_pos`, `next_pos`, `next_param_expansion_pos`,
  `token`), with Rust panics (out-of-bounds indexing) modelled as `none`.
* the instruction-ident dispatchers of
  src/src/analyze/semantics/instr_line/mod.rs and
  src/src/assembler/semantics/actions/instr_line/mod.rs.
* `single_arg` of src/src/analysis/semantics/command/directive.rs.
* the link-time value domain (`Num`), `refine`
  (src/src/backend/object/context.rs, lines 61-86), fragment sizing and
  `VarTable::refine_all` / `resolve` (src/src/link/mod.rs, lines 68-151).

Machine integers are modelled as `Int`/`Nat` (no claim here depends on
i32 overflow), and every Rust panic (failed `assert!`, `unimplemented!()`,
out-of-bounds index) is modelled by an `Option`/`none` result.
-/

namespace Gbas

/-! ## ROM production (src/src/link/mod.rs, `Program::into_rom`) -/

/-- A linked section: `BinarySection { addr: usize, data: Vec<u8> }`. -/
structure BinarySection where
  addr : Nat
  data : List Nat
deriving DecidableEq, Repr

/-- A byte buffer (`Vec<u8>`), modelled as a length plus the byte at each
position below the length. -/
structure ByteBuf where
  len : Nat
  byteAt : Nat → Nat

/-- `const MIN_ROM_LEN: usize = 0x8000`. -/
def MIN_ROM_LEN : Nat := 0x8000

/-- One iteration of the loop in `into_rom`: skip an empty section,
otherwise grow the buffer to `addr + data.len()` with `0xff` fill and copy
the section's bytes at `addr`. -/
def writeSection (buf : ByteBuf) (s : BinarySection) : ByteBuf :=
  if s.data.length = 0 then buf
  else
    { len := max buf.len (s.addr + s.data.length)
      byteAt := fun p =>
        if s.addr ≤ p ∧ p < s.addr + s.data.length then s.data.getD (p - s.addr) 0
        else if p < buf.len then buf.byteAt p else 0xff }

/-- `Program::into_rom`: fold the sections over an initially empty buffer,
then pad to `MIN_ROM_LEN` with `0xff`. -/
def intoRom (sections : List BinarySection) : ByteBuf :=
  let data := sections.foldl writeSection ⟨0, fun _ => 0xff⟩
  if data.len < MIN_ROM_LEN then
    ⟨MIN_ROM_LEN, fun p => if p < data.len then data.byteAt p else 0xff⟩
  else data

/-- The byte the section list dictates at position `p`, starting from an
accumulated answer: the byte of the last (latest-declared) section covering
`p`, if any. -/
def coverGo (ss : List BinarySection) (p : Nat) (acc : Option Nat) : Option Nat :=
  ss.foldl
    (fun a s =>
      if s.addr ≤ p ∧ p < s.addr + s.data.length then some (s.data.getD (p - s.addr) 0) else a)
    acc

/-- The byte of the last section covering position `p`, if any. -/
def coverByte (ss : List BinarySection) (p : Nat) : Option Nat :=
  coverGo ss p none

/-- Largest `addr + data.len()` over the non-empty sections. -/
def romEnd (ss : List BinarySection) : Nat :=
  ss.foldl (fun m s => if s.data.length = 0 then m else max m (s.addr + s.data.length)) 0

theorem coverGo_append (xs ys : List BinarySection) (p : Nat) (acc : Option Nat) :
    coverGo (xs ++ ys) p acc = coverGo ys p (coverGo xs p acc) := by
  simp [coverGo, List.foldl_append]

theorem writeSection_empty (buf : ByteBuf) (s : BinarySection) (h : s.data = []) :
    writeSection buf s = buf := by
  simp [writeSection, h]

theorem writeSection_len (buf : ByteBuf) (s : BinarySection) :
    (writeSection buf s).len = if s.data.length = 0 then buf.len else max buf.len (s.addr + s.data.length) := by
  by_cases h : s.data.length = 0 <;> simp [writeSection, h]

/-- Invariant carried through the `into_rom` loop: every byte below the
length agrees with the last covering processed section (default `0xff`),
and every covered position lies below the length. -/
theorem writeFold_inv (ss : List BinarySection) :
    ∀ (buf : ByteBuf) (cov : Nat → Option Nat),
      (∀ p, p < buf.len → buf.byteAt p = (cov p).getD 0xff) →
      (∀ p, (cov p).isSome → p < buf.len) →
      (∀ p, p < (ss.foldl writeSection buf).len →
          (ss.foldl writeSection buf).byteAt p = (coverGo ss p (cov p)).getD 0xff) ∧
      (∀ p, (coverGo ss p (cov p)).isSome → p < (ss.foldl writeSection buf).len) ∧
      buf.len ≤ (ss.foldl writeSection buf).len := by
  induction ss with
  | nil => intro buf cov h1 h2; exact ⟨by simpa [coverGo] using h1, by simpa [coverGo] using h2, le_refl _⟩
  | cons s rest ih =>
    intro buf cov h1 h2
    have hcovnone : ∀ p, ¬ p < buf.len → cov p = none := by
      intro p hnp
      cases hcv : cov p
      · rfl
      · exact absurd (h2 p (by simp [hcv])) hnp
    have hstep1 : ∀ p, p < (writeSection buf s).len →
        (writeSection buf s).byteAt p =
          ((if s.addr ≤ p ∧ p < s.addr + s.data.length then
              some (s.data.getD (p - s.addr) 0) else cov p)).getD 0xff := by
      intro p hp
      by_cases hemp : s.data.length = 0
      · have hdata : s.data = [] := List.length_eq_zero.mp hemp
        have hnc : ¬ (s.addr ≤ p ∧ p < s.addr + s.data.length) := by omega
        rw [writeSection_empty buf s hdata] at hp ⊢
        rw [if_neg hnc]
        exact h1 p hp
      · simp only [writeSection, if_neg hemp]
        by_cases hc : s.addr ≤ p ∧ p < s.addr + s.data.length
        · simp [hc]
        · simp only [if_neg hc]
          by_cases hlt : p < buf.len
          · simp [hlt, h1 p hlt]
          · simp [hlt, hcovnone p hlt]
    have hstep2 : ∀ p,
        ((if s.addr ≤ p ∧ p < s.addr + s.data.length then
            some (s.data.getD (p - s.addr) 0) else cov p)).isSome →
        p < (writeSection buf s).len := by
      intro p hp
      by_cases hemp : s.data.length = 0
      · have hnc : ¬ (s.addr ≤ p ∧ p < s.addr + s.data.length) := by omega
        rw [if_neg hnc] at hp
        simpa [writeSection_len, hemp] using h2 p hp
      · rw [writeSection_len, if_neg hemp]
        by_cases hc : s.addr ≤ p ∧ p < s.addr + s.data.length
        · omega
        · rw [if_neg hc] at hp
          exact lt_of_lt_of_le (h2 p hp) (le_max_left _ _)
    have hlen : buf.len ≤ (writeSection buf s).len := by
      rw [writeSection_len]; by_cases hemp : s.data.length = 0 <;> simp [hemp]
    obtain ⟨g1, g2, g3⟩ := ih (writeSection buf s)
      (fun p => if s.addr ≤ p ∧ p < s.addr + s.data.length then
          some (s.data.getD (p - s.addr) 0) else cov p)
      hstep1 hstep2
    refine ⟨?_, ?_, le_trans hlen g3⟩
    · intro p hp
      have := g1 p (by simpa using hp)
      simpa [coverGo, List.foldl_cons] using this
    · intro p hp
      have : (coverGo rest p (if s.addr ≤ p ∧ p < s.addr + s.data.length then
          some (s.data.getD (p - s.addr) 0) else cov p)).isSome := by
        simpa [coverGo, List.foldl_cons] using hp
      simpa [coverGo, List.foldl_cons] using g2 p this

/-- C1. For every linked program, `into_rom` produces at least `0x8000`
bytes; every position covered by some section lies below the output's
length — so every binary section's bytes appear in the ROM starting at its
resolved addr, nothing is truncated — and every position below the length
holds the byte of the last section covering it (later-declared sections win
on overlap), `0xFF` when no section covers it. -/
theorem into_rom_c1 (ss : List BinarySection) :
    MIN_ROM_LEN ≤ (intoRom ss).len ∧
    (∀ p, (coverByte ss p).isSome = true → p < (intoRom ss).len) ∧
    ∀ p, p < (intoRom ss).len → (intoRom ss).byteAt p = (coverByte ss p).getD 0xff := by
  obtain ⟨h1, h2, _⟩ := writeFold_inv ss ⟨0, fun _ => 0xff⟩ (fun _ => none)
    (by intro p hp; simp at hp) (by intro p hp; simp at hp)
  unfold intoRom
  by_cases hpad : (ss.foldl writeSection ⟨0, fun _ => 0xff⟩).len < MIN_ROM_LEN
  · rw [if_pos hpad]
    refine ⟨le_refl _, fun p hp => lt_trans (h2 p hp) hpad, ?_⟩
    intro p hp
    by_cases hlt : p < (ss.foldl writeSection ⟨0, fun _ => 0xff⟩).len
    · simp only [hlt, if_pos]
      exact h1 p hlt
    · simp only [hlt, if_false]
      have : ¬ (coverByte ss p).isSome := fun hs => hlt (h2 p hs)
      have hnone : coverByte ss p = none := by
        cases hcb : coverByte ss p
        · rfl
        · exact absurd (by simp [hcb]) this
      simp [hnone]
  · rw [if_neg hpad]
    exact ⟨le_of_not_lt hpad, h2, h1⟩

theorem foldl_writeSection_len (ss : List BinarySection) :
    ∀ (buf : ByteBuf),
      (ss.foldl writeSection buf).len =
        ss.foldl (fun m s => if s.data.length = 0 then m else max m (s.addr + s.data.length)) buf.len := by
  induction ss with
  | nil => intro buf; rfl
  | cons s rest ih =>
    intro buf
    rw [List.foldl_cons, List.foldl_cons, ih (writeSection buf s), writeSection_len]

/-- C10. An empty binary section never affects the ROM image (it is skipped
entirely, its `addr` does not enlarge the output), and the ROM length is the
maximum of `0x8000` and the largest `addr + len` over the non-empty
sections. -/
theorem into_rom_c10 :
    (∀ (xs ys : List BinarySection) (a : Nat),
        intoRom (xs ++ ⟨a, []⟩ :: ys) = intoRom (xs ++ ys)) ∧
    (∀ ss : List BinarySection, (intoRom ss).len = max MIN_ROM_LEN (romEnd ss)) := by
  constructor
  · intro xs ys a
    unfold intoRom
    rw [List.foldl_append, List.foldl_cons, writeSection_empty _ _ rfl, ← List.foldl_append]
  · intro ss
    have hlen : (ss.foldl writeSection ⟨0, fun _ => 0xff⟩).len = romEnd ss := by
      rw [foldl_writeSection_len]; rfl
    unfold intoRom
    by_cases hpad : (ss.foldl writeSection ⟨0, fun _ => 0xff⟩).len < MIN_ROM_LEN
    · simp only [hpad, if_pos]
      rw [hlen] at hpad
      omega
    · simp only [hpad, if_neg, if_false]
      rw [hlen] at hpad ⊢
      omega

/-! ## Macro expansion (src/src/session/macros.rs) -/

/-- A token of the assembler's token stream: `Ident`, `Label`, `Literal`,
`Sigil` (`Token<I, L>` with interned identifiers as strings; literal and
sigil payloads are abstracted to numbers, the expansion engine never
inspects them). -/
inductive Token where
  | ident (name : String)
  | label (name : String)
  | literal (value : Nat)
  | sigil (kind : Nat)
deriving DecidableEq, Repr

/-- `Token::name`: the identifier of an `Ident` or `Label` token. -/
def Token.name : Token → Option String
  | .ident n => some n
  | .label n => some n
  | _ => none

/-- `ParamExpansionPos { param, arg_token }` (src/src/object/mod.rs). -/
structure ParamExpansionPos where
  param : Nat
  argToken : Nat
deriving DecidableEq, Repr

/-- `MacroExpansionPos { token, param_expansion }` (src/src/object/mod.rs). -/
structure MacroExpansionPos where
  token : Nat
  paramExpansion : Option ParamExpansionPos
deriving DecidableEq, Repr

/-- `MacroDefTokens { params, body }`. -/
structure MacroDefTokens where
  params : List String
  body : List Token
deriving DecidableEq, Repr

/-- `MacroExpansion { def, args, context }` (the span context is not
modelled; claims concern the produced tokens). -/
structure MacroExpansion where
  defTokens : MacroDefTokens
  args : List (List Token)
deriving DecidableEq, Repr

/-- `MacroExpansion::param_position`: index of a parameter by name. -/
def MacroExpansion.paramPosition (m : MacroExpansion) (name : String) : Option Nat :=
  m.defTokens.params.findIdx? (fun p => p = name)

/-- `MacroExpansion::mk_macro_expansion_pos`: the first position at a body
token index, descending into a parameter expansion (at argument token 0)
when the body token names a parameter. -/
def MacroExpansion.mkMacroExpansionPos (m : MacroExpansion) (token : Nat) :
    Option MacroExpansionPos :=
  match m.defTokens.body.get? token with
  | none => none
  | some bodyToken =>
    some ⟨token, bodyToken.name.bind fun name =>
      (m.paramPosition name).map fun param => ⟨param, 0⟩⟩

/-- `MacroExpansion::next_param_expansion_pos`. The Rust code indexes
`self.args[pos.param]`; the outer `Option` is `none` when that index is out
of bounds (a panic in Rust). -/
def MacroExpansion.nextParamExpansionPos (m : MacroExpansion) (pos : ParamExpansionPos) :
    Option (Option ParamExpansionPos) :=
  match m.args.get? pos.param with
  | none => none
  | some arg =>
    some (if pos.argToken + 1 < arg.length then some ⟨pos.param, pos.argToken + 1⟩ else none)

/-- `MacroExpansion::next_pos`. Outer `Option`: a Rust panic; inner:
end of the expansion stream. -/
def MacroExpansion.nextPos (m : MacroExpansion) (pos : MacroExpansionPos) :
    Option (Option MacroExpansionPos) :=
  match pos.paramExpansion with
  | none => some (m.mkMacroExpansionPos (pos.token + 1))
  | some pe =>
    match m.nextParamExpansionPos pe with
    | none => none
    | some (some pe2) => some (some ⟨pos.token, some pe2⟩)
    | some none => some (m.mkMacroExpansionPos (pos.token + 1))

/-- `MacroExpansion::token`: the token emitted at a position. `none` models
the Rust panic when `self.args[param][arg_token]` is out of bounds (a
missing or empty argument). -/
def MacroExpansion.token (m : MacroExpansion) (pos : MacroExpansionPos) : Option Token :=
  match m.defTokens.body.get? pos.token with
  | none => none
  | some bodyToken =>
    match pos.paramExpansion with
    | none => some bodyToken
    | some pe =>
      match (m.args.get? pe.param).bind fun arg => arg.get? pe.argToken with
      | none => none
      | some argToken =>
        match bodyToken, argToken, pe.argToken with
        | .label _, .ident x, 0 => some (.label x)
        | _, _, _ => some argToken

/-- The iterator loop of `MacroExpansionIter::next_token`, driven by fuel
(the real iterator terminates because positions strictly increase; fuel
exhaustion also yields `none`, and `MacroExpansion.expand` below supplies
enough fuel for any input). -/
def MacroExpansion.expandFrom (m : MacroExpansion) :
    Nat → Option MacroExpansionPos → Option (List (MacroExpansionPos × Token))
  | _, none => some []
  | 0, some _ => none
  | fuel + 1, some pos =>
    match m.nextPos pos, m.token pos with
    | some next, some t =>
      match m.expandFrom fuel next with
      | some rest => some ((pos, t) :: rest)
      | none => none
    | _, _ => none

/-- The full expansion stream of a macro call: every `(position, token)`
pair `MacroExpansionIter` emits, or `none` when the Rust code panics. -/
def MacroExpansion.expand (m : MacroExpansion) : Option (List (MacroExpansionPos × Token)) :=
  m.expandFrom
    ((m.defTokens.body.length + 1) * (m.args.foldl (fun acc a => acc + a.length) 1 + 1))
    (m.mkMacroExpansionPos 0)

theorem expandFrom_mem_token (m : MacroExpansion) :
    ∀ (fuel : Nat) (start : Option MacroExpansionPos) (out : List (MacroExpansionPos × Token)),
      m.expandFrom fuel start = some out →
      ∀ pos t, (pos, t) ∈ out → m.token pos = some t := by
  intro fuel
  induction fuel with
  | zero =>
    intro start out h pos t hmem
    cases start with
    | none => simp [MacroExpansion.expandFrom] at h; subst h; simp at hmem
    | some p => simp [MacroExpansion.expandFrom] at h
  | succ n ih =>
    intro start out h pos t hmem
    cases start with
    | none => simp [MacroExpansion.expandFrom] at h; subst h; simp at hmem
    | some p =>
      cases hnext : m.nextPos p with
      | none => simp [MacroExpansion.expandFrom, hnext] at h
      | some next =>
        cases htok : m.token p with
        | none => simp [MacroExpansion.expandFrom, hnext, htok] at h
        | some tk =>
          cases hrest : m.expandFrom n next with
          | none => simp [MacroExpansion.expandFrom, hnext, htok, hrest] at h
          | some rest =>
            simp only [MacroExpansion.expandFrom, hnext, htok, hrest,
              Option.some.injEq] at h
            subst h
            rcases List.mem_cons.mp hmem with heq | hmem2
            · have h1 : pos = p := congrArg Prod.fst heq
              have h2 : t = tk := congrArg Prod.snd heq
              subst h1; subst h2; exact htok
            · exact ih next rest hrest pos t hmem2

/-- C6. In macro expansion, a body token `Label(p)` naming a parameter
whose argument starts with `Ident(x)` is emitted as `Label(x)` at the
argument's first token; every other argument token, and every body token
that names no parameter, is emitted unchanged. -/
theorem macro_expansion_c6 (m : MacroExpansion) (out : List (MacroExpansionPos × Token))
    (hout : m.expand = some out) (pos : MacroExpansionPos) (t : Token)
    (hmem : (pos, t) ∈ out) :
    (∀ p j x, m.defTokens.body.get? pos.token = some (.label p) →
      pos.paramExpansion = some ⟨j, 0⟩ →
      ((m.args.get? j).bind fun arg => arg.get? 0) = some (.ident x) →
      t = .label x) ∧
    (∀ j k a, pos.paramExpansion = some ⟨j, k⟩ →
      ((m.args.get? j).bind fun arg => arg.get? k) = some a →
      (¬ ∃ p x, k = 0 ∧ m.defTokens.body.get? pos.token = some (.label p) ∧ a = .ident x) →
      t = a) ∧
    (pos.paramExpansion = none → m.defTokens.body.get? pos.token = some t) := by
  have htok : m.token pos = some t :=
    expandFrom_mem_token m _ _ out hout pos t hmem
  refine ⟨?_, ?_, ?_⟩
  · intro p j x hbody hpe harg
    simp only [MacroExpansion.token, hbody, hpe] at htok
    rw [harg] at htok
    simpa using htok.symm
  · intro j k a hpe harg hnot
    cases hbody : m.defTokens.body.get? pos.token with
    | none => simp only [MacroExpansion.token, hbody] at htok; simp at htok
    | some bodyToken =>
      simp only [MacroExpansion.token, hbody, hpe] at htok
      rw [harg] at htok
      cases bodyToken with
      | label p =>
        cases a with
        | ident x =>
          cases k with
          | zero => exact absurd ⟨p, x, rfl, hbody, rfl⟩ hnot
          | succ k2 => simpa using htok.symm
        | label y => simpa using htok.symm
        | literal v => simpa using htok.symm
        | sigil s => simpa using htok.symm
      | ident p => cases a <;> simpa using htok.symm
      | literal v => cases a <;> simpa using htok.symm
      | sigil s => cases a <;> simpa using htok.symm
  · intro hpe
    cases hbody : m.defTokens.body.get? pos.token with
    | none => simp only [MacroExpansion.token, hbody] at htok; simp at htok
    | some bodyToken =>
      simp only [MacroExpansion.token, hbody, hpe] at htok
      simpa using htok

/-- The macro of the C6 witness: `macro m x: x: x endm` called with the
argument `y, 5`. -/
def c6WitnessCall : MacroExpansion :=
  { defTokens := { params := ["x"], body := [.label "x", .ident "x", .sigil 0] }
    args := [[.ident "y", .literal 5]] }

/-- The token stream the C6 witness call expands to. -/
def c6WitnessOut : List (MacroExpansionPos × Token) :=
  [(⟨0, some ⟨0, 0⟩⟩, .label "y"), (⟨0, some ⟨0, 1⟩⟩, .literal 5),
   (⟨1, some ⟨0, 0⟩⟩, .ident "y"), (⟨1, some ⟨0, 1⟩⟩, .literal 5),
   (⟨2, none⟩, .sigil 0)]

theorem macro_expansion_c6_witness :
    c6WitnessCall.expand = some c6WitnessOut ∧ Token.label "y" = Token.label "y" :=
  ⟨by decide,
   (macro_expansion_c6 c6WitnessCall c6WitnessOut (by decide) ⟨0, some ⟨0, 0⟩⟩ (.label "y")
      (by decide)).1 "x" 0 "y" (by decide) rfl (by decide)⟩

/-- The failing input of C7: a macro with one parameter whose body uses it,
called with no arguments at all (and, in the second conjunct, with one
empty argument sequence). -/
def c7MissingArgCall : MacroExpansion :=
  { defTokens := { params := ["x"], body := [.ident "x"] }, args := [] }

/-- The same macro called with one explicitly empty argument sequence. -/
def c7EmptyArgCall : MacroExpansion :=
  { defTokens := { params := ["x"], body := [.ident "x"] }, args := [[]] }

/-- C7 (failing-input evaluation). The spec says a missing or empty macro
argument behaves as empty and the expansion completes; the code instead
indexes `self.args[param]` / `self.args[param][0]` out of bounds and
panics (modelled as `none`), so no token stream is produced. -/
theorem macro_expansion_c7_bug :
    c7MissingArgCall.expand = none ∧ c7EmptyArgCall.expand = none := by
  constructor <;> decide

/-! ## Instruction-identifier dispatch
(src/src/analyze/semantics/instr_line/mod.rs `InstrActions::will_parse_instr`
and src/src/assembler/semantics/actions/instr_line/mod.rs
`InstrContext::will_parse_instr`). -/

/-- A source span; a diagnostic is reported `.at(span)`. -/
abbrev Span := String

/-- The diagnostic messages these dispatchers can emit (from
`Message` in src/src/diagnostics.rs and src/src/diagnostics/message.rs; each
era's enum holds its own subset of these constructors). -/
inductive Message where
  | undefinedMacro (name : String)
  | cannotUseSymbolNameAsMacroName (name : String)
  | notAMnemonic (name : String)
deriving DecidableEq, Repr

/-- Rendered message text: `UndefinedMacro` from src/src/diagnostics.rs
line 210, `NotAMnemonic` from src/src/diagnostics/message.rs line 184,
`CannotUseSymbolNameAsMacroName` from src/src/diagnostics.rs. -/
def Message.render : Message → String
  | .undefinedMacro name => "invocation of undefined macro `" ++ name ++ "`"
  | .cannotUseSymbolNameAsMacroName name =>
      "`" ++ name ++ "` cannot be used as a macro name"
  | .notAMnemonic name => "`" ++ name ++ "` is not a mnemonic"

/-- `ResolvedName` of the analyze era: a name-table entry is a macro id or
a symbol id (builtins live in the separate `KEYS` table there). -/
inductive ResolvedName where
  | macroName (id : Nat)
  | symbol (id : Nat)
deriving DecidableEq, Repr

/-- `ResolvedName` of the assembler era: keywords are name-table entries. -/
inductive ResolvedNameKw where
  | keywordBuiltinMnemonic (bindsToLabel : Bool)
  | keywordOperand (id : Nat)
  | macroName (id : Nat)
  | symbol (id : Nat)
deriving DecidableEq, Repr

/-- `InstrRule`: the parser context the dispatcher hands back; `error`
(`InstrRule::Error(self)`) resumes parsing at the next line. -/
inductive InstrRule where
  | builtinInstr (key : String)
  | macroInstr (id : Nat)
  | error
deriving DecidableEq, Repr

/-- `eq_ignore_ascii_case` on strings. -/
def asciiLower (c : Char) : Char :=
  if 'A' ≤ c ∧ c ≤ 'Z' then Char.ofNat (c.toNat + 32) else c

def eqIgnoreAsciiCase (a b : String) : Bool :=
  a.data.map asciiLower = b.data.map asciiLower

/-- The spellings of the `KEYS` table of
src/src/analyze/semantics/instr_line/mod.rs (each maps to a
`KeyEntry::BuiltinInstr`; the entry payload is not inspected by C8). -/
def KEYS : List String :=
  ["adc", "add", "and", "bit", "call", "cp", "cpl", "daa", "db", "dec", "di",
   "ds", "dw", "ei", "equ", "halt", "inc", "include", "jp", "jr", "ld",
   "ldhl", "macro", "nop", "or", "org", "pop", "push", "res", "ret", "reti",
   "rl", "rla", "rlc", "rlca", "rr", "rra", "rrc", "rrca", "rst", "sbc",
   "section", "set", "sla", "sra", "srl", "stop", "sub", "swap", "xor"]

/-- `will_parse_instr` of the analyze era
(src/src/analyze/semantics/instr_line/mod.rs, lines 46-79): first the
`KEYS` builtin lookup (ASCII-case-insensitive), then the name table;
an unresolved identifier yields one `UndefinedMacro` diagnostic at the
identifier's span and an `error` rule (parsing continues). -/
def willParseInstrAnalyze (resolved : Option ResolvedName) (ident : String) (span : Span) :
    InstrRule × List (Message × Span) :=
  match KEYS.find? (fun spelling => eqIgnoreAsciiCase spelling ident) with
  | some spelling => (.builtinInstr spelling, [])
  | none =>
    match resolved with
    | some (.macroName id) => (.macroInstr id, [])
    | some (.symbol _) => (.error, [(.cannotUseSymbolNameAsMacroName ident, span)])
    | none => (.error, [(.undefinedMacro ident, span)])

/-- `will_parse_instr` of the assembler era
(src/src/assembler/semantics/actions/instr_line/mod.rs, lines 41-76):
everything goes through `resolve_name`; an unresolved identifier (or an
operand keyword) yields one `NotAMnemonic` diagnostic. -/
def willParseInstrAssembler (resolved : Option ResolvedNameKw) (ident : String) (span : Span) :
    InstrRule × List (Message × Span) :=
  match resolved with
  | some (.keywordBuiltinMnemonic _) => (.builtinInstr ident, [])
  | some (.macroName id) => (.macroInstr id, [])
  | some (.symbol _) => (.error, [(.cannotUseSymbolNameAsMacroName ident, span)])
  | some (.keywordOperand _) => (.error, [(.notAMnemonic ident, span)])
  | none => (.error, [(.notAMnemonic ident, span)])

/-- C8 (counterexample). In the assembler-era dispatcher — one of the two
cited implementations — an identifier that resolves to no name-table entry
is diagnosed `NotAMnemonic` (rendered ``...`foo` is not a mnemonic...``),
not `UndefinedMacro` as the claim states, so the claim fails there. -/
theorem will_parse_instr_c8_counterexample :
    willParseInstrAssembler none "foo" "span0" =
      (.error, [(.notAMnemonic "foo", "span0")]) ∧
    Message.notAMnemonic "foo" ≠ Message.undefinedMacro "foo" ∧
    (Message.notAMnemonic "foo").render ≠
      "invocation of undefined macro `foo`" := by
  refine ⟨rfl, by decide, by decide⟩

/-- C8 (amended). When the identifier resolves to no entry, the analyze-era
dispatcher emits exactly one `UndefinedMacro` diagnostic at the identifier's
span, whose rendered text contains ``undefined macro `name` ``, and
continues with an `error` rule; the assembler-era dispatcher instead emits
one `NotAMnemonic` diagnostic at the same span. -/
theorem will_parse_instr_c8 (ident : String) (span : Span)
    (hkeys : KEYS.find? (fun spelling => eqIgnoreAsciiCase spelling ident) = none) :
    willParseInstrAnalyze none ident span = (.error, [(.undefinedMacro ident, span)]) ∧
    (∃ pre suf, (Message.undefinedMacro ident).render =
        pre ++ ("undefined macro `" ++ ident ++ "`") ++ suf) ∧
    willParseInstrAssembler none ident span = (.error, [(.notAMnemonic ident, span)]) := by
  refine ⟨?_, ⟨"invocation of ", "", ?_⟩, rfl⟩
  · rw [willParseInstrAnalyze, hkeys]
  · show "invocation of undefined macro `" ++ ident ++ "`" = _
    have hsplit : ("invocation of undefined macro `" : String) =
        "invocation of " ++ "undefined macro `" := by decide
    simp only [String.append_assoc]
    rw [hsplit, String.append_assoc]
    simp [String.append_empty]

theorem will_parse_instr_c8_witness :
    KEYS.find? (fun spelling => eqIgnoreAsciiCase spelling "foo") = none ∧
    willParseInstrAnalyze none "foo" "span0" =
      (.error, [(.undefinedMacro "foo", "span0")]) :=
  ⟨by decide, (will_parse_instr_c8 "foo" "span0" (by decide)).1⟩

/-! ## `single_arg`
(src/src/analysis/semantics/command/directive.rs, lines 132-151), shared by
the `ds`, `equ`, `org` and `include` directives. -/

/-- The diagnostic `single_arg` can emit. -/
inductive DirectiveDiag where
  | operandCount (actual expected : Nat)
deriving DecidableEq, Repr

/-- `single_arg`: with no argument it emits `OperandCount { actual: 0,
expected: 1 }` and fails softly (`Err(())`); with one argument it succeeds.
With two or more arguments it executes `assert!(args.next().is_none())`,
which panics — modelled as `none`. -/
def single_arg {A : Type} (args : List A) : Option (Except Unit A × List DirectiveDiag) :=
  match args with
  | [] => some (.error (), [.operandCount 0 1])
  | [a] => some (.ok a, [])
  | _ :: _ :: _ => none

/-- C2 (failing-input evaluation). Assembly recovers with a diagnostic for a
missing argument, but a single-argument directive given two arguments (for
example the source line `ds 1, 2`) panics in `single_arg`'s assertion, so
assembly aborts with no diagnostic and no program — contradicting the
claim that every non-root-I/O error is recorded and processing continues. -/
theorem single_arg_c2_bug :
    single_arg ([1, 2] : List Nat) = none ∧
    single_arg ([7] : List Nat) = some (.ok 7, []) ∧
    single_arg ([] : List Nat) = some (.error (), [.operandCount 0 1]) := by
  refine ⟨rfl, rfl, rfl⟩

/-! ## Link-time values and variable refinement
`Num`/`Value` (src/src/backend/object/resolve.rs, src/src/link/mod.rs),
`refine` (src/src/backend/object/context.rs, lines 61-86), expression
evaluation (src/src/program/link/eval.rs), fragment sizes and
`VarTable::refine_all`/`resolve` (src/src/link/mod.rs, lines 68-151). -/

/-- The link-time value domain: an interval `Range { min, max }` of
candidate values, or `Unknown`. -/
inductive Num where
  | range (min max : Int)
  | unknown
deriving DecidableEq, Repr

/-- `From<i32> for Value`: the singleton interval. -/
def Num.exact (n : Int) : Num := .range n n

/-- `AddAssign`/`Add` on values (src/src/backend/object/resolve.rs,
lines 30-54): endpointwise sum, `Unknown` absorbing. -/
def Num.add : Num → Num → Num
  | .range a b, .range c d => .range (a + c) (b + d)
  | _, _ => .unknown

/-- `Sub` on values (src/src/backend/object/resolve.rs, lines 56-73). -/
def Num.sub : Num → Num → Num
  | .range a b, .range c d => .range (a - d) (b - c)
  | _, _ => .unknown

/-- Modelled from the spec: the `Mul` impl for the interval value type is
not under src/ (only its caller, `BinaryOperator::apply`, is); the spec
prescribes min/max of the pointwise products for `*`, `Unknown` absorbing. -/
def Num.mul : Num → Num → Num
  | .range a b, .range c d =>
      .range (min (min (a * c) (a * d)) (min (b * c) (b * d)))
             (max (max (a * c) (a * d)) (max (b * c) (b * d)))
  | _, _ => .unknown

/-- `BinaryOperator` (src/src/model.rs, lines 4-10). -/
inductive BinaryOperator where
  | bitwiseOr
  | division
  | minus
  | multiplication
  | plus
deriving DecidableEq, Repr

/-- `BinaryOperator::apply` (src/src/program/link/eval.rs, lines 52-61):
`-`, `*`, `+` are implemented; every other operator — `/` and `|` — hits
`unimplemented!()`, a panic, modelled as `none`. -/
def BinaryOperator.apply : BinaryOperator → Num → Num → Option Num
  | .minus, lhs, rhs => some (lhs.sub rhs)
  | .multiplication, lhs, rhs => some (lhs.mul rhs)
  | .plus, lhs, rhs => some (lhs.add rhs)
  | _, _, _ => none

/-- An atom of a link-time expression (src/src/model.rs `Atom`): a name, an
integer literal, or the location counter. -/
inductive RAtom where
  | name (id : Nat)
  | literal (value : Int)
  | locationCounter
deriving DecidableEq, Repr

/-- A link-time expression (`ExprVariant` of src/src/program/link/eval.rs):
the `Unary` variant is `unreachable!()` there. -/
inductive RExpr where
  | atom (a : RAtom)
  | unary (e : RExpr)
  | binary (op : BinaryOperator) (lhs rhs : RExpr)
deriving DecidableEq, Repr

/-- A name-table entry (`NameDef` of src/src/program/link/eval.rs): a
link-time variable, or a section (whose `addr` variable is read). -/
inductive NameDef where
  | reloc (id : Nat)
  | sectionId (id : Nat)
deriving DecidableEq, Repr

/-- `Width` (src/src/model.rs) and `Width::len` (src/src/link/mod.rs,
lines 153-160). -/
inductive Width where
  | byte
  | word
deriving DecidableEq, Repr

def Width.len : Width → Int
  | .byte => 1
  | .word => 2

/-- A section fragment (`Fragment` of src/src/object/mod.rs, matched as
`Node` by src/src/link/mod.rs `Node::size`). -/
inductive Fragment where
  | byte (value : Nat)
  | immediate (e : RExpr) (w : Width)
  | ldInlineAddr (opcode : Nat) (e : RExpr)
  | embedded (opcode : Nat) (e : RExpr)
  | reloc (id : Nat)
  | reserved (e : RExpr)
deriving DecidableEq, Repr

/-- A section of the object (src/src/object/mod.rs `Section`): an optional
`org` constraint, the ids of its `addr` and `size` variables, and its
fragments. -/
structure ObjSection where
  addrConstraint : Option RExpr
  addr : Nat
  size : Nat
  fragments : List Fragment
deriving DecidableEq, Repr

/-- The linkable content: sections plus the name table. -/
structure Content where
  sections : List ObjSection
  names : List (Option NameDef)
deriving DecidableEq, Repr

/-- The variable table: one link-time value per `VarId`. -/
abbrev VarTable := List Num

/-- Atom evaluation, modelled from the spec ("evaluation uses the current
variable table; undefined names yield Unknown") following
src/src/program/link/eval.rs `Atom::eval`, whose `to_num` counterpart for
src/src/link/mod.rs is not under src/: a literal is a singleton, the
location counter reads the context, a name reads its variable (or the
addr variable of the named section); an id with no name-table entry yields
`Unknown` (with a diagnostic the linker ignores here), and an out-of-range
index is a Rust panic (`none`). -/
def evalAtom (content : Content) (vars : VarTable) (location : Num) : RAtom → Option Num
  | .literal v => some (.exact v)
  | .locationCounter => some location
  | .name id =>
    match content.names.get? id with
    | none => none
    | some none => some .unknown
    | some (some (.reloc rid)) => vars.get? rid
    | some (some (.sectionId sid)) =>
      match content.sections.get? sid with
      | none => none
      | some s => vars.get? s.addr

/-- `Expr::eval` / `to_num` (src/src/program/link/eval.rs, lines 9-28):
left operand, right operand, then `BinaryOperator::apply`; the `Unary`
variant is `unreachable!()`. -/
def RExpr.toNum (content : Content) (vars : VarTable) (location : Num) : RExpr → Option Num
  | .atom a => evalAtom content vars location a
  | .unary _ => none
  | .binary op lhs rhs =>
    match lhs.toNum content vars location with
    | none => none
    | some lv =>
      match rhs.toNum content vars location with
      | none => none
      | some rv => op.apply lv rv

/-- `SymbolTable::refine` on one stored value
(src/src/backend/object/context.rs, lines 61-86). Returns the stored value
and whether it was refined; `none` models the panics: the `assert!`s that
the new interval narrows the old one, and the `panic!` when a previously
approximated value becomes `Unknown`. -/
def Num.refine (old new : Num) : Option (Num × Bool) :=
  match old, new with
  | .unknown, v => some (v, v ≠ .unknown)
  | .range oldMin oldMax, .range newMin newMax =>
    if oldMin ≤ newMin ∧ newMax ≤ oldMax then
      some (.range newMin newMax, decide (oldMin < newMin ∨ newMax < oldMax))
    else none
  | .range _ _, .unknown => none

/-- `context.vars[id].refine(value)`: refine the variable at `id`; `none`
when the index is out of bounds or the refinement panics. -/
def VarTable.refine (vars : VarTable) (id : Nat) (v : Num) : Option (VarTable × Bool) :=
  match vars.get? id with
  | none => none
  | some old =>
    match Num.refine old v with
    | none => none
    | some (stored, flag) => some (vars.set id stored, flag)

/-- `Node::size` (src/src/link/mod.rs, lines 137-151, identical to
src/src/program/link/eval.rs, lines 63-76): `Byte`/`Embedded` 1,
`Immediate` the width, `Reloc` 0, `Reserved` its evaluated operand; a
`LdInlineAddr` is 2 when the evaluated address interval has `min ≥ 0xff00`,
3 when it has `max < 0xff00`, and `[2, 3]` otherwise. -/
def Fragment.size (content : Content) (vars : VarTable) (location : Num) :
    Fragment → Option Num
  | .byte _ => some (.exact 1)
  | .embedded _ _ => some (.exact 1)
  | .immediate _ w => some (.exact w.len)
  | .reloc _ => some (.exact 0)
  | .reserved e => e.toNum content vars location
  | .ldInlineAddr _ e =>
    match e.toNum content vars location with
    | none => none
    | some v =>
      some (match v with
        | .range mn mx =>
          if 0xff00 ≤ mn then .exact 2
          else if mx < 0xff00 then .exact 3
          else .range 2 3
        | .unknown => .range 2 3)

/-- C9 (counterexample). Applying `/` (and `|`) to non-singleton interval
operands panics with `unimplemented!()` (modelled `none`) instead of
yielding `Unknown`, and evaluating an expression containing `/` aborts. -/
theorem binary_operator_apply_c9_counterexample :
    BinaryOperator.apply .division (.range 0 1) (.range 2 5) = none ∧
    BinaryOperator.apply .bitwiseOr (.range 0 1) (.range 2 5) = none ∧
    (none : Option Num) ≠ some .unknown ∧
    RExpr.toNum ⟨[], []⟩ [] .unknown
      (.binary .division (.atom (.literal 6)) (.atom (.literal 3))) = none := by
  refine ⟨rfl, rfl, by decide, rfl⟩

/-- C9 (amended). Link-time application of `+`, `-` and `*` follows the
interval rules and always yields a value, but `/` and `|` hit
`unimplemented!()` — a panic, for every operand shape, singleton or not —
so evaluation of an expression using them aborts the assembler instead of
yielding `Unknown`. -/
theorem binary_operator_apply_c9 (lhs rhs : Num) :
    BinaryOperator.apply .plus lhs rhs = some (lhs.add rhs) ∧
    BinaryOperator.apply .minus lhs rhs = some (lhs.sub rhs) ∧
    BinaryOperator.apply .multiplication lhs rhs = some (lhs.mul rhs) ∧
    BinaryOperator.apply .division lhs rhs = none ∧
    BinaryOperator.apply .bitwiseOr lhs rhs = none :=
  ⟨rfl, rfl, rfl, rfl, rfl⟩

/-- The context of the C5 counterexample: one name bound to variable 0,
which holds the non-singleton high-RAM interval `[0xff00, 0xff01]`. -/
def c5Content : Content := ⟨[], [some (.reloc 0)]⟩

def c5Vars : VarTable := [.range 0xff00 0xff01]

/-- C5 (counterexample). An `LdInlineAddr` whose address evaluates to the
non-singleton interval `[0xff00, 0xff01]` is sized 2 — the code only tests
`min ≥ 0xff00` — while the claim says every non-singleton case is sized
`[2, 3]`. -/
theorem ld_inline_addr_size_c5_counterexample :
    RExpr.toNum c5Content c5Vars .unknown (.atom (.name 0)) =
      some (.range 0xff00 0xff01) ∧
    (0xff00 : Int) ≠ 0xff01 ∧
    (Fragment.ldInlineAddr 0xF0 (.atom (.name 0))).size c5Content c5Vars .unknown =
      some (.range 2 2) ∧
    Num.range 2 2 ≠ Num.range 2 3 := by
  refine ⟨rfl, by decide, rfl, by decide⟩

/-- C5 (amended). The size of an `LdInlineAddr` fragment is 2 whenever the
evaluated address interval lies entirely in the high-RAM page
(`min ≥ 0xFF00`, singleton or not); otherwise 3 whenever it lies entirely
below (`max < 0xFF00`); and `[2, 3]` only for intervals straddling `0xFF00`
and for `Unknown`. -/
theorem ld_inline_addr_size_c5 (content : Content) (vars : VarTable) (location : Num)
    (opcode : Nat) (e : RExpr) (v : Num)
    (h : e.toNum content vars location = some v) :
    (∀ mn mx, v = .range mn mx →
      (0xff00 ≤ mn →
        (Fragment.ldInlineAddr opcode e).size content vars location = some (.exact 2)) ∧
      (mn < 0xff00 → mx < 0xff00 →
        (Fragment.ldInlineAddr opcode e).size content vars location = some (.exact 3)) ∧
      (mn < 0xff00 → 0xff00 ≤ mx →
        (Fragment.ldInlineAddr opcode e).size content vars location = some (.range 2 3))) ∧
    (v = .unknown →
      (Fragment.ldInlineAddr opcode e).size content vars location = some (.range 2 3)) := by
  constructor
  · intro mn mx hv
    subst hv
    refine ⟨?_, ?_, ?_⟩
    · intro h1
      simp [Fragment.size, h, h1]
    · intro h1 h2
      simp [Fragment.size, h, not_le.mpr h1, h2]
    · intro h1 h2
      simp [Fragment.size, h, not_le.mpr h1, not_lt.mpr h2]
  · intro hv
    subst hv
    simp [Fragment.size, h]

theorem ld_inline_addr_size_c5_witness :
    RExpr.toNum c5Content c5Vars .unknown (.atom (.name 0)) =
      some (.range 0xff00 0xff01) ∧
    (Fragment.ldInlineAddr 0xF0 (.atom (.name 0))).size c5Content c5Vars .unknown =
      some (.exact 2) :=
  ⟨by decide,
   ((ld_inline_addr_size_c5 c5Content c5Vars .unknown 0xF0 (.atom (.name 0))
      (.range 0xff00 0xff01) (by decide)).1 0xff00 0xff01 rfl).1 (by decide)⟩

/-- The fragment walk of `Section::traverse` as driven by
`VarTable::refine_all` (src/src/link/mod.rs, lines 81-92 and 109-123):
starting from the section's address value, each fragment's current size is
added to the running offset, the location becomes `addr + offset`, and each
`Reloc(id)` refines variable `id` to the current location, counting the
refinements. Returns the updated table, the accumulated offset, the final
location and the count. -/
def traverseFragments (content : Content) :
    List Fragment → VarTable → Num → Num → Num → Int →
    Option (VarTable × Num × Num × Int)
  | [], vars, _, location, offset, n => some (vars, offset, location, n)
  | f :: fs, vars, addr, location, offset, n =>
    match f.size content vars location with
    | none => none
    | some sz =>
      let offset2 := offset.add sz
      let location2 := addr.add offset2
      match f with
      | .reloc id =>
        match vars.refine id location2 with
        | none => none
        | some (vars2, flag) =>
          traverseFragments content fs vars2 addr location2 offset2
            (n + if flag then 1 else 0)
      | _ => traverseFragments content fs vars addr location2 offset2 n

/-- The section loop of `VarTable::refine_all` (src/src/link/mod.rs,
lines 74-92): per section, evaluate the `org` constraint (absent ⇒ 0) with
the location left over from the previous section, refine the section's
`addr` variable (its return value is discarded — not counted), walk the
fragments, then refine the section's `size` variable with the accumulated
offset (counted). -/
def refineAllGo (content : Content) :
    List ObjSection → VarTable → Num → Int → Option (VarTable × Num × Int)
  | [], vars, location, n => some (vars, location, n)
  | s :: rest, vars, location, n =>
    match (match s.addrConstraint with
           | some e => e.toNum content vars location
           | none => some (.exact 0)) with
    | none => none
    | some a =>
      match vars.refine s.addr a with
      | none => none
      | some (vars1, _) =>
        match traverseFragments content s.fragments vars1 a a (.exact 0) n with
        | none => none
        | some (vars2, offset, locEnd, n1) =>
          match vars2.refine s.size offset with
          | none => none
          | some (vars3, flag) =>
            refineAllGo content rest vars3 locEnd (n1 + if flag then 1 else 0)

/-- `VarTable::refine_all`: one pass over the whole content, starting with
location `Unknown`; returns the refined table and the refinement count. -/
def refineAll (content : Content) (vars : VarTable) : Option (VarTable × Int) :=
  match refineAllGo content content.sections vars .unknown 0 with
  | none => none
  | some (vars2, _, n) => some (vars2, n)

/-- `VarTable::resolve` (src/src/link/mod.rs, lines 69-72): two
`refine_all` passes, their counts discarded. -/
def VarTable.resolve (content : Content) (vars : VarTable) : Option VarTable :=
  match refineAll content vars with
  | none => none
  | some (vars1, _) =>
    match refineAll content vars1 with
    | none => none
    | some (vars2, _) => some vars2

/-- One value refines another: `Unknown` may become anything, an interval
may only shrink (its min not decrease, its max not increase) and never
becomes `Unknown` again. -/
def Num.refinedFrom : Num → Num → Bool
  | _, .unknown => true
  | .range newMin newMax, .range oldMin oldMax => oldMin ≤ newMin && newMax ≤ oldMax
  | .unknown, .range _ _ => false

/-- Pointwise refinement between variable tables (entry by entry, same
length). -/
def optRefined : Option Num → Option Num → Bool
  | some a, some b => a.refinedFrom b
  | none, none => true
  | _, _ => false

theorem Num.refinedFrom_refl (v : Num) : v.refinedFrom v = true := by
  cases v <;> simp [Num.refinedFrom]

theorem Num.refinedFrom_trans {a b c : Num} (h1 : a.refinedFrom b = true)
    (h2 : b.refinedFrom c = true) : a.refinedFrom c = true := by
  cases c with
  | unknown => cases a <;> simp [Num.refinedFrom]
  | range cm cM =>
    cases b with
    | unknown => simp [Num.refinedFrom] at h2
    | range bm bM =>
      cases a with
      | unknown => simp [Num.refinedFrom] at h1
      | range am aM =>
        simp only [Num.refinedFrom, Bool.and_eq_true, decide_eq_true_eq] at h1 h2 ⊢
        omega

theorem optRefined_refl (v : Option Num) : optRefined v v = true := by
  cases v <;> simp [optRefined, Num.refinedFrom_refl]

theorem optRefined_trans {a b c : Option Num} (h1 : optRefined a b = true)
    (h2 : optRefined b c = true) : optRefined a c = true := by
  cases a <;> cases b <;> cases c <;>
    simp_all [optRefined] <;> exact Num.refinedFrom_trans h1 h2

/-- A successful single `refine` stores a value refining the old one. -/
theorem Num.refinedFrom_unknown (v : Num) : v.refinedFrom .unknown = true := by
  cases v <;> rfl

theorem Num.refine_refinedFrom {old new stored : Num} {flag : Bool}
    (h : Num.refine old new = some (stored, flag)) :
    stored.refinedFrom old = true := by
  cases old with
  | unknown => exact Num.refinedFrom_unknown stored
  | range om oM =>
    cases new with
    | unknown => simp [Num.refine] at h
    | range nm nM =>
      simp only [Num.refine] at h
      by_cases hc : om ≤ nm ∧ nM ≤ oM
      · rw [if_pos hc] at h
        simp only [Option.some.injEq, Prod.mk.injEq] at h
        obtain ⟨hs, _⟩ := h
        subst hs
        simp [Num.refinedFrom, hc.1, hc.2]
      · rw [if_neg hc] at h
        exact absurd h (by simp)

theorem VarTable.refine_refines {vars vars2 : VarTable} {id : Nat} {v : Num} {flag : Bool}
    (h : vars.refine id v = some (vars2, flag)) :
    ∀ i, optRefined (vars2.get? i) (vars.get? i) = true := by
  intro i
  simp only [VarTable.refine] at h
  cases hget : vars.get? id with
  | none => simp only [hget] at h; exact Option.noConfusion h
  | some old =>
    simp only [hget] at h
    cases hr : Num.refine old v with
    | none => simp only [hr] at h; exact Option.noConfusion h
    | some sf =>
      obtain ⟨stored, flag2⟩ := sf
      simp only [hr, Option.some.injEq, Prod.mk.injEq] at h
      obtain ⟨hv, _⟩ := h
      subst hv
      by_cases hi : i = id
      · subst hi
        have hlt : i < vars.length := by
          by_contra hh
          rw [List.get?_eq_none.mpr (le_of_not_lt hh)] at hget
          exact Option.noConfusion hget
        rw [List.get?_set_eq_of_lt _ hlt, hget]
        exact Num.refine_refinedFrom hr
      · rw [List.get?_set_ne _ _ (Ne.symm hi)]
        exact optRefined_refl _

theorem traverseFragments_refines (content : Content) :
    ∀ (fs : List Fragment) (vars : VarTable) (addr location offset : Num) (n : Int)
      (vars2 : VarTable) (offset2 locEnd : Num) (n2 : Int),
      traverseFragments content fs vars addr location offset n =
        some (vars2, offset2, locEnd, n2) →
      ∀ i, optRefined (vars2.get? i) (vars.get? i) = true := by
  intro fs
  induction fs with
  | nil =>
    intro vars addr location offset n vars2 offset2 locEnd n2 h i
    simp only [traverseFragments] at h
    have : vars2 = vars := by
      have := Option.some.inj h
      exact (Prod.mk.injEq .. ▸ this).1.symm
    subst this
    exact optRefined_refl _
  | cons f rest ih =>
    intro vars addr location offset n vars2 offset2 locEnd n2 h i
    simp only [traverseFragments] at h
    cases hsz : f.size content vars location with
    | none => rw [hsz] at h; exact absurd h (by simp)
    | some sz =>
      rw [hsz] at h
      cases f with
      | reloc id =>
        simp only at h
        cases hr : vars.refine id (addr.add (offset.add sz)) with
        | none => rw [hr] at h; exact absurd h (by simp)
        | some vf =>
          rw [hr] at h
          obtain ⟨varsB, flag⟩ := vf
          exact optRefined_trans (ih _ _ _ _ _ _ _ _ _ h i)
            (VarTable.refine_refines hr i)
      | byte v => exact ih _ _ _ _ _ _ _ _ _ h i
      | immediate e w => exact ih _ _ _ _ _ _ _ _ _ h i
      | ldInlineAddr o e => exact ih _ _ _ _ _ _ _ _ _ h i
      | embedded o e => exact ih _ _ _ _ _ _ _ _ _ h i
      | reserved e => exact ih _ _ _ _ _ _ _ _ _ h i

theorem refineAllGo_refines (content : Content) :
    ∀ (ss : List ObjSection) (vars : VarTable) (location : Num) (n : Int)
      (vars2 : VarTable) (locEnd : Num) (n2 : Int),
      refineAllGo content ss vars location n = some (vars2, locEnd, n2) →
      ∀ i, optRefined (vars2.get? i) (vars.get? i) = true := by
  intro ss
  induction ss with
  | nil =>
    intro vars location n vars2 locEnd n2 h i
    simp only [refineAllGo] at h
    have : vars2 = vars := by
      have := Option.some.inj h
      exact (Prod.mk.injEq .. ▸ this).1.symm
    subst this
    exact optRefined_refl _
  | cons s rest ih =>
    intro vars location n vars2 locEnd n2 h i
    simp only [refineAllGo] at h
    cases ha : (match s.addrConstraint with
                | some e => e.toNum content vars location
                | none => some (.exact 0)) with
    | none => simp only [ha] at h; exact Option.noConfusion h
    | some a =>
      simp only [ha] at h
      cases hr1 : vars.refine s.addr a with
      | none => simp only [hr1] at h; exact Option.noConfusion h
      | some vf1 =>
        obtain ⟨vars1, flag1⟩ := vf1
        simp only [hr1] at h
        cases htr : traverseFragments content s.fragments vars1 a a (.exact 0) n with
        | none => simp only [htr] at h; exact Option.noConfusion h
        | some tr =>
          obtain ⟨varsB, offset, locB, n1⟩ := tr
          simp only [htr] at h
          cases hr2 : varsB.refine s.size offset with
          | none => simp only [hr2] at h; exact Option.noConfusion h
          | some vf2 =>
            obtain ⟨vars3, flag2⟩ := vf2
            simp only [hr2] at h
            exact optRefined_trans (ih _ _ _ _ _ _ h i)
              (optRefined_trans (VarTable.refine_refines hr2 i)
                (optRefined_trans (traverseFragments_refines content _ _ _ _ _ _ _ _ _ _ htr i)
                  (VarTable.refine_refines hr1 i)))

/-- C4. Across a whole refinement pass, every variable's value only
refines: an interval's min never decreases, its max never increases, and a
variable that held an interval never reverts to `Unknown` (the code's
`refine` enforces this by assertion, so any completed pass satisfies it). -/
theorem refine_all_monotone_c4 (content : Content) (vars vars2 : VarTable) (n : Int)
    (h : refineAll content vars = some (vars2, n)) :
    ∀ i, optRefined (vars2.get? i) (vars.get? i) = true := by
  intro i
  simp only [refineAll] at h
  cases hg : refineAllGo content content.sections vars .unknown 0 with
  | none => rw [hg] at h; exact absurd h (by simp)
  | some r =>
    rw [hg] at h
    obtain ⟨varsG, locEnd, nG⟩ := r
    have : vars2 = varsG := by
      have := Option.some.inj h
      exact (Prod.mk.injEq .. ▸ this).1.symm
    subst this
    exact refineAllGo_refines content _ _ _ _ _ _ _ hg i

/-- The C4 witness: a one-section object (`org $0150` and one `nop`-sized
byte), its variables starting unresolved. -/
def c4Content : Content :=
  ⟨[⟨some (.atom (.literal 0x150)), 0, 1, [.byte 0x00, .reloc 2]⟩], []⟩

def c4Vars : VarTable := [.unknown, .unknown, .unknown]

theorem refine_all_monotone_c4_witness :
    refineAll c4Content c4Vars =
      some ([.range 0x150 0x150, .range 1 1, .range 0x151 0x151], 2) ∧
    optRefined (Num.range 0x150 0x150) (Num.unknown) = true :=
  ⟨by decide,
   refine_all_monotone_c4 c4Content c4Vars
     [.range 0x150 0x150, .range 1 1, .range 0x151 0x151] 2 (by decide) 0⟩

/-! ## The linker fixed-point claim (C3) -/

/-- The C3 counterexample content: three sections where the first one's
`org` names a label of the second, the second one's `org` names a label of
the third, and the third's is the literal `$0100`. Variables: 0/1 addr/size
of the first section, 2 its label; 3/4/5 for the second; 6/7/8 for the
third. Name 0 is the second section's label (variable 5), name 1 the
third's (variable 8). -/
def c3Content : Content :=
  ⟨[⟨some (.atom (.name 0)), 0, 1, [.reloc 2]⟩,
    ⟨some (.atom (.name 1)), 3, 4, [.reloc 5]⟩,
    ⟨some (.atom (.literal 0x100)), 6, 7, [.reloc 8]⟩],
   [some (.reloc 5), some (.reloc 8)]⟩

def c3Vars : VarTable := List.replicate 9 .unknown

/-- The variable table after `resolve`'s two passes on `c3Content`. -/
def c3AfterTwo : VarTable :=
  [.unknown, .range 0 0, .unknown,
   .range 0x100 0x100, .range 0 0, .range 0x100 0x100,
   .range 0x100 0x100, .range 0 0, .range 0x100 0x100]

/-- The variable table after a third `refine_all` pass on `c3Content`. -/
def c3AfterThree : VarTable :=
  [.range 0x100 0x100, .range 0 0, .range 0x100 0x100,
   .range 0x100 0x100, .range 0 0, .range 0x100 0x100,
   .range 0x100 0x100, .range 0 0, .range 0x100 0x100]

/-- C3 (counterexample). On a three-section chain of forward `org`
references, the two passes of `VarTable::resolve` do not reach a fixed
point: a third `refine_all` still reports one refinement and changes two
variables (the first section's addr and its label), refuting the claim for
this object. -/
theorem refine_all_third_pass_c3_counterexample :
    VarTable.resolve c3Content c3Vars = some c3AfterTwo ∧
    refineAll c3Content c3AfterTwo = some (c3AfterThree, 1) ∧
    (1 : Int) ≠ 0 ∧ c3AfterThree ≠ c3AfterTwo := by
  refine ⟨by decide, by decide, by decide, by decide⟩

/-- An expression is constant: literals combined with the implemented
operators `+`, `-`, `*` (no names, no location counter, no `/`, `|` or
unary node). -/
def RExpr.constOnly : RExpr → Bool
  | .atom (.literal _) => true
  | .atom _ => false
  | .unary _ => false
  | .binary op lhs rhs =>
    (match op with
     | .plus => true
     | .minus => true
     | .multiplication => true
     | _ => false) && lhs.constOnly && rhs.constOnly

/-- A fragment's size expression (if any) is constant. -/
def Fragment.constOnly : Fragment → Bool
  | .ldInlineAddr _ e => e.constOnly
  | .reserved e => e.constOnly
  | _ => true

def ObjSection.constOnly (s : ObjSection) : Bool :=
  (match s.addrConstraint with
   | some e => e.constOnly
   | none => true) && s.fragments.all Fragment.constOnly

/-- Every expression the linker will evaluate in this object is constant. -/
def Content.constOnly (c : Content) : Bool :=
  c.sections.all ObjSection.constOnly

/-- A constant expression evaluates, in every context, to one fixed
singleton interval. -/
theorem RExpr.constOnly_toNum (e : RExpr) (hc : e.constOnly = true) :
    ∃ k : Int, ∀ (content : Content) (vars : VarTable) (location : Num),
      e.toNum content vars location = some (.range k k) := by
  induction e with
  | atom a =>
    cases a with
    | literal v => exact ⟨v, fun _ _ _ => rfl⟩
    | name id => simp [RExpr.constOnly] at hc
    | locationCounter => simp [RExpr.constOnly] at hc
  | unary e ihe => simp [RExpr.constOnly] at hc
  | binary op lhs rhs ihl ihr =>
    simp only [RExpr.constOnly, Bool.and_eq_true] at hc
    obtain ⟨⟨hop, hl⟩, hr⟩ := hc
    obtain ⟨k1, h1⟩ := ihl hl
    obtain ⟨k2, h2⟩ := ihr hr
    cases op with
    | plus =>
      exact ⟨k1 + k2, fun content vars location => by
        simp [RExpr.toNum, h1 content vars location, h2 content vars location,
          BinaryOperator.apply, Num.add]⟩
    | minus =>
      exact ⟨k1 - k2, fun content vars location => by
        simp [RExpr.toNum, h1 content vars location, h2 content vars location,
          BinaryOperator.apply, Num.sub]⟩
    | multiplication =>
      exact ⟨k1 * k2, fun content vars location => by
        simp [RExpr.toNum, h1 content vars location, h2 content vars location,
          BinaryOperator.apply, Num.mul]⟩
    | division => simp at hop
    | bitwiseOr => simp at hop

/-- A constant-expression fragment has, in every context, one fixed
singleton size. -/
theorem Fragment.constOnly_size (f : Fragment) (hc : f.constOnly = true) :
    ∃ k : Int, ∀ (content : Content) (vars : VarTable) (location : Num),
      f.size content vars location = some (.range k k) := by
  cases f with
  | byte v => exact ⟨1, fun _ _ _ => rfl⟩
  | embedded o e => exact ⟨1, fun _ _ _ => rfl⟩
  | immediate e w => exact ⟨w.len, fun _ _ _ => rfl⟩
  | reloc id => exact ⟨0, fun _ _ _ => rfl⟩
  | reserved e => exact RExpr.constOnly_toNum e hc
  | ldInlineAddr o e =>
    obtain ⟨k, hk⟩ := RExpr.constOnly_toNum e hc
    by_cases hhi : 0xff00 ≤ k
    · exact ⟨2, fun content vars location => by
        simp [Fragment.size, hk content vars location, hhi, Num.exact]⟩
    · exact ⟨3, fun content vars location => by
        simp [Fragment.size, hk content vars location, hhi, not_le.mp hhi, Num.exact]⟩

/-- One refinement operation a pass performs: the target variable, the
incoming value, and whether `refine_all` counts its result (section `addr`
refinements are not counted; `Reloc` and section-`size` ones are). -/
structure RefineOp where
  target : Nat
  value : Num
  counted : Bool
deriving DecidableEq, Repr

/-- Run a list of refinement operations over a variable table. -/
def applyOps : List RefineOp → VarTable → Int → Option (VarTable × Int)
  | [], vars, n => some (vars, n)
  | op :: rest, vars, n =>
    match vars.refine op.target op.value with
    | none => none
    | some (vars2, flag) =>
      applyOps rest vars2 (n + if op.counted && flag then 1 else 0)

/-- The operations one fragment walk performs, for a constant-expression
object (sizes evaluated in a dummy context — they do not depend on the
variables then). Returns the operations, the accumulated offset and the
final location. -/
def fragOps (content : Content) :
    List Fragment → Num → Num → Num → Option (List RefineOp × Num × Num)
  | [], _, location, offset => some ([], offset, location)
  | f :: fs, addr, location, offset =>
    match f.size content [] location with
    | none => none
    | some sz =>
      let offset2 := offset.add sz
      let location2 := addr.add offset2
      match fragOps content fs addr location2 offset2 with
      | none => none
      | some (ops, o, l) =>
        match f with
        | .reloc id => some (⟨id, location2, true⟩ :: ops, o, l)
        | _ => some (ops, o, l)

/-- The operations one whole `refine_all` pass performs, for a
constant-expression object. -/
def sectionOps (content : Content) :
    List ObjSection → Num → Option (List RefineOp × Num)
  | [], location => some ([], location)
  | s :: rest, location =>
    match (match s.addrConstraint with
           | some e => e.toNum content [] location
           | none => some (.exact 0)) with
    | none => none
    | some a =>
      match fragOps content s.fragments a a (.exact 0) with
      | none => none
      | some (ops, offset, locEnd) =>
        match sectionOps content rest locEnd with
        | none => none
        | some (restOps, lend) =>
          some (⟨s.addr, a, false⟩ :: ops ++ ⟨s.size, offset, true⟩ :: restOps, lend)

theorem applyOps_append (l1 l2 : List RefineOp) :
    ∀ (vars : VarTable) (n : Int),
      applyOps (l1 ++ l2) vars n =
        match applyOps l1 vars n with
        | none => none
        | some r => applyOps l2 r.1 r.2 := by
  induction l1 with
  | nil => intro vars n; rfl
  | cons op rest ih =>
    intro vars n
    simp only [List.cons_append, applyOps]
    cases h : vars.refine op.target op.value with
    | none => rfl
    | some r =>
      obtain ⟨vars2, flag⟩ := r
      exact ih vars2 _

/-- For a constant-expression fragment list, the fragment walk of
`refine_all` is exactly the application of its operation list. -/
theorem fragOps_traverse (content : Content) :
    ∀ (fs : List Fragment), (∀ f ∈ fs, f.constOnly = true) →
      ∀ (addr location offset : Num),
        ∃ ops o l, fragOps content fs addr location offset = some (ops, o, l) ∧
          ∀ (vars : VarTable) (n : Int),
            traverseFragments content fs vars addr location offset n =
              (match applyOps ops vars n with
               | none => none
               | some r => some (r.1, o, l, r.2)) := by
  intro fs
  induction fs with
  | nil =>
    intro _ addr location offset
    exact ⟨[], offset, location, rfl, fun vars n => rfl⟩
  | cons f fs ih =>
    intro hconst addr location offset
    have hf : f.constOnly = true := hconst f (List.mem_cons_self f fs)
    have hfs : ∀ g ∈ fs, g.constOnly = true :=
      fun g hg => hconst g (List.mem_cons_of_mem f hg)
    obtain ⟨k, hk⟩ := Fragment.constOnly_size f hf
    obtain ⟨ops, o, l, hops, heq⟩ :=
      ih hfs addr (addr.add (offset.add (.range k k))) (offset.add (.range k k))
    cases f with
    | reloc id =>
      refine ⟨⟨id, addr.add (offset.add (.range k k)), true⟩ :: ops, o, l, ?_, ?_⟩
      · simp only [fragOps, hk content [] location, hops]
      · intro vars n
        simp only [traverseFragments, hk content vars location, applyOps]
        cases hr : vars.refine id (addr.add (offset.add (.range k k))) with
        | none => rfl
        | some r =>
          obtain ⟨vars2, flag⟩ := r
          simp only [heq vars2 (n + if flag then 1 else 0), Bool.true_and]
    | byte v =>
      refine ⟨ops, o, l, ?_, ?_⟩
      · simp only [fragOps, hk content [] location, hops]
      · intro vars n
        simp only [traverseFragments, hk content vars location]
        exact heq vars n
    | immediate e w =>
      refine ⟨ops, o, l, ?_, ?_⟩
      · simp only [fragOps, hk content [] location, hops]
      · intro vars n
        simp only [traverseFragments, hk content vars location]
        exact heq vars n
    | ldInlineAddr oc e =>
      refine ⟨ops, o, l, ?_, ?_⟩
      · simp only [fragOps, hk content [] location, hops]
      · intro vars n
        simp only [traverseFragments, hk content vars location]
        exact heq vars n
    | embedded oc e =>
      refine ⟨ops, o, l, ?_, ?_⟩
      · simp only [fragOps, hk content [] location, hops]
      · intro vars n
        simp only [traverseFragments, hk content vars location]
        exact heq vars n
    | reserved e =>
      refine ⟨ops, o, l, ?_, ?_⟩
      · simp only [fragOps, hk content [] location, hops]
      · intro vars n
        simp only [traverseFragments, hk content vars location]
        exact heq vars n

/-- For a constant-expression object, one `refine_all` pass is exactly the
application of its operation list (which does not depend on the incoming
variable table). -/
theorem sectionOps_refineAllGo (content : Content) :
    ∀ (ss : List ObjSection), (∀ s ∈ ss, s.constOnly = true) →
      ∀ (location : Num),
        ∃ ops lend, sectionOps content ss location = some (ops, lend) ∧
          ∀ (vars : VarTable) (n : Int),
            refineAllGo content ss vars location n =
              (match applyOps ops vars n with
               | none => none
               | some r => some (r.1, lend, r.2)) := by
  intro ss
  induction ss with
  | nil =>
    intro _ location
    exact ⟨[], location, rfl, fun vars n => rfl⟩
  | cons s rest ih =>
    intro hconst location
    have hs : s.constOnly = true := hconst s (List.mem_cons_self s rest)
    have hrest : ∀ t ∈ rest, t.constOnly = true :=
      fun t ht => hconst t (List.mem_cons_of_mem s ht)
    simp only [ObjSection.constOnly, Bool.and_eq_true] at hs
    obtain ⟨haddr, hfrags⟩ := hs
    have hfragsAll : ∀ f ∈ s.fragments, f.constOnly = true := by
      intro f hf
      exact List.all_eq_true.mp hfrags f hf
    -- The addr value is the same in the dummy and the real context.
    have haval : ∃ a : Num,
        (match s.addrConstraint with
         | some e => e.toNum content ([] : VarTable) location
         | none => some (.exact 0)) = some a ∧
        ∀ (vars : VarTable),
          (match s.addrConstraint with
           | some e => e.toNum content vars location
           | none => some (.exact 0)) = some a := by
      cases hac : s.addrConstraint with
      | none => exact ⟨.exact 0, rfl, fun vars => rfl⟩
      | some e =>
        rw [hac] at haddr
        obtain ⟨k, hk⟩ := RExpr.constOnly_toNum e haddr
        exact ⟨.range k k, hk content [] location, fun vars => hk content vars location⟩
    obtain ⟨a, haDummy, haAll⟩ := haval
    obtain ⟨fops, offset, locB, hfops, hfeq⟩ :=
      fragOps_traverse content s.fragments hfragsAll a a (.exact 0)
    obtain ⟨rops, lend, hrops, hreq⟩ := ih hrest locB
    refine ⟨⟨s.addr, a, false⟩ :: fops ++ ⟨s.size, offset, true⟩ :: rops, lend, ?_, ?_⟩
    · simp only [sectionOps, haDummy, hfops, hrops]
    · intro vars n
      simp only [refineAllGo, haAll vars, applyOps, List.cons_append]
      cases hr1 : vars.refine s.addr a with
      | none => rfl
      | some r1 =>
        obtain ⟨vars1, flag1⟩ := r1
        dsimp only
        have hcount : (n + if (false && flag1) = true then 1 else 0 : Int) = n := by simp
        rw [hcount, hfeq vars1 n]
        simp only [List.append_eq]
        rw [applyOps_append]
        cases hap : applyOps fops vars1 n with
        | none => rfl
        | some r2 =>
          obtain ⟨varsB, nB⟩ := r2
          simp only [applyOps]
          cases hr2 : varsB.refine s.size offset with
          | none => rfl
          | some r3 =>
            obtain ⟨vars3, flag2⟩ := r3
            simp only [Bool.true_and]
            exact hreq vars3 (nB + if flag2 then 1 else 0)

def Num.isSingleton (v : Num) : Prop := ∃ k : Int, v = .range k k

/-- All operation values of a pass are singleton intervals. -/
def opsSingleton (ops : List RefineOp) : Prop :=
  ∀ op ∈ ops, op.value.isSingleton

theorem Num.add_singleton {a b : Num} (ha : a.isSingleton) (hb : b.isSingleton) :
    (a.add b).isSingleton := by
  obtain ⟨k1, h1⟩ := ha
  obtain ⟨k2, h2⟩ := hb
  exact ⟨k1 + k2, by rw [h1, h2]; rfl⟩

/-- On success, `refine` stores exactly the incoming value. -/
theorem Num.refine_stored {old v s : Num} {flag : Bool}
    (h : Num.refine old v = some (s, flag)) : s = v := by
  cases old with
  | unknown =>
    simp only [Num.refine, Option.some.injEq, Prod.mk.injEq] at h
    exact h.1.symm
  | range om oM =>
    cases v with
    | unknown => exact absurd h (by simp [Num.refine])
    | range nm nM =>
      simp only [Num.refine] at h
      by_cases hc : om ≤ nm ∧ nM ≤ oM
      · rw [if_pos hc] at h
        simp only [Option.some.injEq, Prod.mk.injEq] at h
        exact h.1.symm
      · rw [if_neg hc] at h
        exact absurd h (by simp)

/-- A successful singleton-to-singleton refinement forces equality. -/
theorem Num.refine_singleton {k t : Int} {s : Num} {flag : Bool}
    (h : Num.refine (.range k k) (.range t t) = some (s, flag)) : t = k := by
  simp only [Num.refine] at h
  by_cases hc : k ≤ t ∧ t ≤ k
  · omega
  · rw [if_neg hc] at h
    exact absurd h (by simp)

theorem VarTable.refine_set {vars w : VarTable} {id : Nat} {v : Num} {flag : Bool}
    (h : vars.refine id v = some (w, flag)) :
    w = vars.set id v ∧ id < vars.length := by
  simp only [VarTable.refine] at h
  cases hget : vars.get? id with
  | none => simp only [hget] at h; exact Option.noConfusion h
  | some old =>
    simp only [hget] at h
    cases hr : Num.refine old v with
    | none => simp only [hr] at h; exact Option.noConfusion h
    | some sf =>
      obtain ⟨stored, f2⟩ := sf
      simp only [hr, Option.some.injEq, Prod.mk.injEq] at h
      obtain ⟨hw, _⟩ := h
      have hsv : stored = v := Num.refine_stored hr
      subst hsv
      refine ⟨hw.symm, ?_⟩
      by_contra hh
      rw [List.get?_eq_none.mpr (le_of_not_lt hh)] at hget
      exact Option.noConfusion hget

/-- The inner `Num.refine` a successful table refinement performed. -/
theorem VarTable.refine_num {vars w : VarTable} {id : Nat} {v old : Num} {flag : Bool}
    (h : vars.refine id v = some (w, flag)) (hold : vars.get? id = some old) :
    Num.refine old v = some (v, flag) := by
  simp only [VarTable.refine, hold] at h
  cases hr : Num.refine old v with
  | none => simp only [hr] at h; exact Option.noConfusion h
  | some sf =>
    obtain ⟨stored, f2⟩ := sf
    have hsv : stored = v := Num.refine_stored hr
    subst hsv
    simp only [hr, Option.some.injEq, Prod.mk.injEq] at h
    rw [h.2]

theorem VarTable.set_same : ∀ (l : VarTable) (i : Nat) (x : Num),
    l.get? i = some x → l.set i x = l := by
  intro l
  induction l with
  | nil => intro i x h; exact absurd h (by simp)
  | cons a rest ih =>
    intro i x h
    cases i with
    | zero =>
      simp only [List.get?] at h
      simp [List.set, Option.some.inj h]
    | succ j =>
      simp only [List.get?] at h
      simp [List.set, ih j x h]

/-- Applying singleton-valued operations preserves every entry that already
holds a singleton. -/
theorem applyOps_freeze (ops : List RefineOp) (hs : opsSingleton ops) :
    ∀ (vars vars2 : VarTable) (n n2 : Int),
      applyOps ops vars n = some (vars2, n2) →
      ∀ (i : Nat) (k : Int), vars.get? i = some (.range k k) →
        vars2.get? i = some (.range k k) := by
  induction ops with
  | nil =>
    intro vars vars2 n n2 h i k hi
    simp only [applyOps, Option.some.injEq, Prod.mk.injEq] at h
    rw [← h.1]
    exact hi
  | cons op rest ih =>
    intro vars vars2 n n2 h i k hi
    simp only [applyOps] at h
    cases hr : vars.refine op.target op.value with
    | none => simp only [hr] at h; exact Option.noConfusion h
    | some r =>
      obtain ⟨w, flag⟩ := r
      simp only [hr] at h
      have hsrest : opsSingleton rest := fun o ho => hs o (List.mem_cons_of_mem _ ho)
      obtain ⟨hw, hlt⟩ := VarTable.refine_set hr
      subst hw
      by_cases hij : i = op.target
      · obtain ⟨t, ht⟩ := hs op (List.mem_cons_self op rest)
        have hnum : Num.refine (.range k k) op.value = some (op.value, flag) :=
          VarTable.refine_num hr (hij ▸ hi)
        rw [ht] at hnum
        have htk : t = k := Num.refine_singleton hnum
        refine ih hsrest _ vars2 _ n2 h i k ?_
        rw [hij, List.get?_set_eq_of_lt _ hlt, ht, htk]
      · refine ih hsrest _ vars2 _ n2 h i k ?_
        rw [List.get?_set_ne _ _ (Ne.symm hij)]
        exact hi

/-- After a successful pass of singleton-valued operations, every operation
target holds exactly the operation's value. -/
theorem applyOps_post (ops : List RefineOp) (hs : opsSingleton ops) :
    ∀ (vars vars2 : VarTable) (n n2 : Int),
      applyOps ops vars n = some (vars2, n2) →
      ∀ op ∈ ops, vars2.get? op.target = some op.value := by
  induction ops with
  | nil => intro vars vars2 n n2 h op hop; exact absurd hop (by simp)
  | cons op0 rest ih =>
    intro vars vars2 n n2 h op hop
    simp only [applyOps] at h
    cases hr : vars.refine op0.target op0.value with
    | none => simp only [hr] at h; exact Option.noConfusion h
    | some r =>
      obtain ⟨w, flag⟩ := r
      simp only [hr] at h
      have hsrest : opsSingleton rest := fun o ho => hs o (List.mem_cons_of_mem _ ho)
      obtain ⟨hw, hlt⟩ := VarTable.refine_set hr
      rcases List.mem_cons.mp hop with heq | hmem
      · subst heq
        obtain ⟨t, ht⟩ := hs op (List.mem_cons_self op rest)
        have hwget : w.get? op.target = some op.value := by
          rw [hw, List.get?_set_eq_of_lt _ hlt]
        rw [ht] at hwget ⊢
        exact applyOps_freeze rest hsrest w vars2 _ n2 h op.target t hwget
      · exact ih hsrest w vars2 _ n2 h op hmem

/-- A pass of singleton-valued operations whose targets already hold the
operations' values changes nothing and counts zero refinements. -/
theorem applyOps_noop (ops : List RefineOp) (hs : opsSingleton ops) :
    ∀ (vars : VarTable) (n : Int),
      (∀ op ∈ ops, vars.get? op.target = some op.value) →
      applyOps ops vars n = some (vars, n) := by
  induction ops with
  | nil => intro vars n _; rfl
  | cons op rest ih =>
    intro vars n hall
    obtain ⟨t, ht⟩ := hs op (List.mem_cons_self op rest)
    have hv : vars.get? op.target = some op.value := hall op (List.mem_cons_self op rest)
    have hrefine : vars.refine op.target op.value = some (vars, false) := by
      simp only [VarTable.refine, hv, ht]
      have hnum : Num.refine (.range t t) (.range t t) =
          some (.range t t, false) := by
        simp [Num.refine]
      simp only [hnum]
      rw [VarTable.set_same vars op.target (.range t t) (by rw [← ht]; exact hv)]
    simp only [applyOps, hrefine]
    have hcount : (n + if (op.counted && false) = true then 1 else 0 : Int) = n := by
      simp
    rw [hcount]
    exact ih (fun o ho => hs o (List.mem_cons_of_mem _ ho)) vars n
      (fun o ho => hall o (List.mem_cons_of_mem _ ho))

/-- For constant-expression fragments with singleton addr and offset, all
produced operation values (and the accumulated offset) are singletons. -/
theorem fragOps_singleton (content : Content) :
    ∀ (fs : List Fragment), (∀ f ∈ fs, f.constOnly = true) →
      ∀ (addr location offset : Num), addr.isSingleton → offset.isSingleton →
        ∀ ops o l, fragOps content fs addr location offset = some (ops, o, l) →
          opsSingleton ops ∧ o.isSingleton := by
  intro fs
  induction fs with
  | nil =>
    intro _ addr location offset _ hoff ops o l h
    simp only [fragOps, Option.some.injEq, Prod.mk.injEq] at h
    obtain ⟨h1, h2, _⟩ := h
    subst h1
    exact ⟨fun op hop => absurd hop (by simp), h2 ▸ hoff⟩
  | cons f fs ih =>
    intro hconst addr location offset haddr hoff ops o l h
    have hf : f.constOnly = true := hconst f (List.mem_cons_self f fs)
    have hfs : ∀ g ∈ fs, g.constOnly = true :=
      fun g hg => hconst g (List.mem_cons_of_mem f hg)
    obtain ⟨k, hk⟩ := Fragment.constOnly_size f hf
    simp only [fragOps, hk content [] location] at h
    have hoff2 : (offset.add (.range k k)).isSingleton :=
      Num.add_singleton hoff ⟨k, rfl⟩
    have hloc2 : (addr.add (offset.add (.range k k))).isSingleton :=
      Num.add_singleton haddr hoff2
    cases hrec : fragOps content fs addr (addr.add (offset.add (.range k k)))
        (offset.add (.range k k)) with
    | none => simp only [hrec] at h; exact Option.noConfusion h
    | some r =>
      obtain ⟨ops1, o1, l1⟩ := r
      simp only [hrec] at h
      obtain ⟨hops1, ho1⟩ := ih hfs addr _ _ haddr hoff2 ops1 o1 l1 hrec
      cases f with
      | reloc id =>
        simp only [Option.some.injEq, Prod.mk.injEq] at h
        obtain ⟨h1, h2, _⟩ := h
        subst h1
        refine ⟨?_, h2 ▸ ho1⟩
        intro op hop
        rcases List.mem_cons.mp hop with heq | hmem
        · subst heq; exact hloc2
        · exact hops1 op hmem
      | byte v =>
        simp only [Option.some.injEq, Prod.mk.injEq] at h
        obtain ⟨h1, h2, _⟩ := h
        subst h1
        exact ⟨hops1, h2 ▸ ho1⟩
      | immediate e w =>
        simp only [Option.some.injEq, Prod.mk.injEq] at h
        obtain ⟨h1, h2, _⟩ := h
        subst h1
        exact ⟨hops1, h2 ▸ ho1⟩
      | ldInlineAddr oc e =>
        simp only [Option.some.injEq, Prod.mk.injEq] at h
        obtain ⟨h1, h2, _⟩ := h
        subst h1
        exact ⟨hops1, h2 ▸ ho1⟩
      | embedded oc e =>
        simp only [Option.some.injEq, Prod.mk.injEq] at h
        obtain ⟨h1, h2, _⟩ := h
        subst h1
        exact ⟨hops1, h2 ▸ ho1⟩
      | reserved e =>
        simp only [Option.some.injEq, Prod.mk.injEq] at h
        obtain ⟨h1, h2, _⟩ := h
        subst h1
        exact ⟨hops1, h2 ▸ ho1⟩

/-- For a constant-expression object, all operation values of a pass are
singleton intervals. -/
theorem sectionOps_singleton (content : Content) :
    ∀ (ss : List ObjSection), (∀ s ∈ ss, s.constOnly = true) →
      ∀ (location : Num) (ops : List RefineOp) (lend : Num),
        sectionOps content ss location = some (ops, lend) → opsSingleton ops := by
  intro ss
  induction ss with
  | nil =>
    intro _ location ops lend h
    simp only [sectionOps, Option.some.injEq, Prod.mk.injEq] at h
    rw [← h.1]
    exact fun op hop => absurd hop (by simp)
  | cons s rest ih =>
    intro hconst location ops lend h
    have hs : s.constOnly = true := hconst s (List.mem_cons_self s rest)
    have hrest : ∀ t ∈ rest, t.constOnly = true :=
      fun t ht => hconst t (List.mem_cons_of_mem s ht)
    simp only [ObjSection.constOnly, Bool.and_eq_true] at hs
    obtain ⟨haddr, hfrags⟩ := hs
    have hfragsAll : ∀ f ∈ s.fragments, f.constOnly = true :=
      fun f hf => List.all_eq_true.mp hfrags f hf
    simp only [sectionOps] at h
    have hasing : ∀ a : Num,
        (match s.addrConstraint with
         | some e => e.toNum content ([] : VarTable) location
         | none => some (.exact 0)) = some a → a.isSingleton := by
      intro a ha
      cases hac : s.addrConstraint with
      | none =>
        simp only [hac, Option.some.injEq] at ha
        exact ⟨0, ha.symm⟩
      | some e =>
        simp only [hac] at ha haddr
        obtain ⟨k, hk⟩ := RExpr.constOnly_toNum e haddr
        rw [hk content [] location] at ha
        exact ⟨k, (Option.some.inj ha).symm⟩
    cases ha : (match s.addrConstraint with
               | some e => e.toNum content ([] : VarTable) location
               | none => some (.exact 0)) with
    | none => simp only [ha] at h; exact Option.noConfusion h
    | some a =>
      simp only [ha] at h
      cases hfo : fragOps content s.fragments a a (.exact 0) with
      | none => simp only [hfo] at h; exact Option.noConfusion h
      | some fo =>
        obtain ⟨fops, offset, locB⟩ := fo
        simp only [hfo] at h
        cases hso : sectionOps content rest locB with
        | none => simp only [hso] at h; exact Option.noConfusion h
        | some so =>
          obtain ⟨rops, lend2⟩ := so
          simp only [hso, Option.some.injEq, Prod.mk.injEq] at h
          obtain ⟨hops, _⟩ := h
          subst hops
          have hasing2 : a.isSingleton := hasing a ha
          obtain ⟨hfsing, hosing⟩ :=
            fragOps_singleton content s.fragments hfragsAll a a (.exact 0)
              hasing2 ⟨0, rfl⟩ fops offset locB hfo
          intro op hop
          rcases List.mem_cons.mp hop with heq | hmem
          · subst heq; exact hasing2
          · rcases List.mem_append.mp hmem with hf | hrest2
            · exact hfsing op hf
            · rcases List.mem_cons.mp hrest2 with heq2 | hmem2
              · subst heq2; exact hosing
              · exact ih hrest locB rops lend2 hso op hmem2

/-- C3 (amended). For objects all of whose link-time expressions (section
origins, `LdInlineAddr` and `Reserved` operands) are constant — literals
combined with the implemented operators `+`, `-`, `*` — the two passes of
`VarTable::resolve` do reach a fixed point: a third `refine_all` returns a
refinement count of 0 and leaves every variable's value unchanged. (The
counterexample shows this fails once an origin expression may read a
variable of a later section.) -/
theorem refine_all_fixed_point_c3 (content : Content) (vars v2 : VarTable)
    (hc : content.constOnly = true)
    (h : VarTable.resolve content vars = some v2) :
    refineAll content v2 = some (v2, 0) := by
  have hall : ∀ s ∈ content.sections, s.constOnly = true :=
    fun s hs => List.all_eq_true.mp hc s hs
  obtain ⟨ops, lend, hso, heq⟩ :=
    sectionOps_refineAllGo content content.sections hall .unknown
  have hra : ∀ x : VarTable, refineAll content x =
      (match applyOps ops x 0 with
       | none => none
       | some r => some (r.1, r.2)) := by
    intro x
    simp only [refineAll, heq x 0]
    cases applyOps ops x 0 with
    | none => rfl
    | some r => rfl
  have hsing : opsSingleton ops :=
    sectionOps_singleton content content.sections hall .unknown ops lend hso
  simp only [VarTable.resolve] at h
  cases h1 : refineAll content vars with
  | none => simp only [h1] at h; exact Option.noConfusion h
  | some r1 =>
    obtain ⟨v1, n1⟩ := r1
    simp only [h1] at h
    cases h2 : refineAll content v1 with
    | none => simp only [h2] at h; exact Option.noConfusion h
    | some r2 =>
      obtain ⟨v2a, n2⟩ := r2
      simp only [h2, Option.some.injEq] at h
      rw [hra vars] at h1
      cases hap1 : applyOps ops vars 0 with
      | none => simp only [hap1] at h1; exact Option.noConfusion h1
      | some rA =>
        obtain ⟨w1, m1⟩ := rA
        simp only [hap1, Option.some.injEq, Prod.mk.injEq] at h1
        obtain ⟨hw1, _⟩ := h1
        rw [hw1] at hap1
        have hpost : ∀ op ∈ ops, v1.get? op.target = some op.value := by
          intro op hop
          exact applyOps_post ops hsing vars v1 0 m1 hap1 op hop
        have hnoop : applyOps ops v1 0 = some (v1, 0) :=
          applyOps_noop ops hsing v1 0 hpost
        rw [hra v1, hnoop] at h2
        simp only [Option.some.injEq, Prod.mk.injEq] at h2
        obtain ⟨hv2a, _⟩ := h2
        subst hv2a
        subst h
        rw [hra v1, hnoop]

/-- The C3 witness object: one section, `org $0150`, a one-byte fragment
and a label, every expression constant. -/
def c3ConstContent : Content :=
  ⟨[⟨some (.atom (.literal 0x150)), 0, 1, [.byte 0x76, .reloc 2]⟩], []⟩

def c3ConstVars : VarTable := [.unknown, .unknown, .unknown]

theorem refine_all_fixed_point_c3_witness :
    c3ConstContent.constOnly = true ∧
    VarTable.resolve c3ConstContent c3ConstVars =
      some [.range 0x150 0x150, .range 1 1, .range 0x151 0x151] ∧
    refineAll c3ConstContent [.range 0x150 0x150, .range 1 1, .range 0x151 0x151] =
      some ([.range 0x150 0x150, .range 1 1, .range 0x151 0x151], 0) :=
  ⟨by decide, by decide,
   refine_all_fixed_point_c3 c3ConstContent c3ConstVars
     [.range 0x150 0x150, .range 1 1, .range 0x151 0x151] (by decide) (by decide)⟩

end Gbas
